import Mathlib

/-!
Verification of the chain-verification engine in `src/examples/bln_verify.cpp`
(the `bln_verify` example of the kitty truth-table library).

The C++ file `bln_verify.cpp` is embedded shallowly below: `verify` and
`main` are translated statement by statement.  The kitty library functions it
calls (`create_from_hex_string`, `create_from_binary_string`,
`create_nth_var`, `get_bit`, `set_bit`, `is_symmetric_in`,
`kitty::detail::trim`) are not part of the provided sources; they are
modelled from the specification's description of the `BitFunction`
component (spec sections 3, 4.1, 4.5 and 6) and carry a
`Modelled from the spec:` doc comment.
-/

namespace BlnVerify

/-- A dense truth table: arity `numVars` and a bit vector that, for every
well-formed value produced below, has length `2 ^ numVars`.  Bit index `i`
encodes the assignment "variable k = bit k of i".  This models
`kitty::dynamic_truth_table` as described by the spec's BitFunction data
model. -/
structure BitFunction where
  numVars : Nat
  bits : List Bool
deriving DecidableEq

/-- Modelled from the spec: `getBit(i)` reads bit `i` of the dense bit
vector (kitty's `get_bit`); out-of-range reads return `false`. -/
def BitFunction.getBit (f : BitFunction) (i : Nat) : Bool :=
  (f.bits[i]?).getD false

/-- Modelled from the spec: `setBit(i)` sets bit `i` to one (kitty's
`set_bit`); out-of-range indices leave the table unchanged. -/
def BitFunction.setBit (f : BitFunction) (i : Nat) : BitFunction :=
  { f with bits := f.bits.set i true }

/-- Modelled from the spec: `spec.construct()` creates a fresh all-zero
function of the same arity. -/
def zeroFn (n : Nat) : BitFunction :=
  ⟨n, List.replicate (2 ^ n) false⟩

/-- Value of one hexadecimal digit; `none` on a non-hex character. -/
def hexDigitVal (c : Char) : Option Nat :=
  if '0' ≤ c ∧ c ≤ '9' then some (c.toNat - '0'.toNat)
  else if 'a' ≤ c ∧ c ≤ 'f' then some (c.toNat - 'a'.toNat + 10)
  else if 'A' ≤ c ∧ c ≤ 'F' then some (c.toNat - 'A'.toNat + 10)
  else none

/-- Check that every character of a list is a hexadecimal digit. -/
def allHex (cs : List Char) : Bool :=
  cs.all (fun c => (hexDigitVal c).isSome)

/-- Modelled from the spec: `fromHex(arity, hexString)` (kitty's
`create_from_hex_string`) decodes a big-endian hex digit string into a
`2 ^ arity`-bit function; it fails when the string's implied bit length
does not match `2 ^ arity` rounded to hex-digit granularity.  Bit `i` of
the function is bit `i % 4` of the `(i / 4)`-th nibble counted from the
right end of the string. -/
def fromHex (n : Nat) (s : String) : Option BitFunction :=
  let cs := s.data
  let len := max 1 (2 ^ n / 4)
  if cs.length = len ∧ allHex cs = true then
    some ⟨n, (List.range (2 ^ n)).map (fun i =>
      ((hexDigitVal (cs.getD (len - 1 - i / 4) '0')).getD 0 >>> (i % 4)) % 2 = 1)⟩
  else none

/-- Modelled from the spec: `fromBinary(arity, bitString)` (kitty's
`create_from_binary_string`) decodes an explicit 0/1 string of length
`2 ^ arity`, failing on wrong length or non-binary characters.  The string
is big-endian: its first character is bit `2 ^ arity - 1`, its last
character is bit `0` (so `"1000"` with arity 2 is two-input AND). -/
def fromBinary (k : Nat) (cs : List Char) : Option BitFunction :=
  if cs.length = 2 ^ k ∧ cs.all (fun c => c = '0' ∨ c = '1') then
    some ⟨k, (List.range (2 ^ k)).map (fun i => cs.getD (2 ^ k - 1 - i) '0' = '1')⟩
  else none

/-- Modelled from the spec: `projection(arity, index)` (kitty's
`create_nth_var`) is the function whose value at input index `i` is bit
`index` of `i`. -/
def projection (n k : Nat) : BitFunction :=
  ⟨n, (List.range (2 ^ n)).map (fun i => (i >>> k) % 2 = 1)⟩

/-- Modelled from the spec: `std::tolower` restricted to ASCII, used for
the case-insensitive fanin comparisons. -/
def lowerChar (c : Char) : Char :=
  if 'A' ≤ c ∧ c ≤ 'Z' then Char.ofNat (c.toNat + 32) else c

/-- `std::lexicographical_compare` on character sequences: strict
lexicographic less-than, comparing from the first character forward. -/
def lexLt : List Char → List Char → Bool
  | [], [] => false
  | [], _ :: _ => true
  | _ :: _, [] => false
  | a :: as, b :: bs => if a < b then true else if b < a then false else lexLt as bs

/-- The variable environment `tables`: an association list from one-character
identifiers to truth tables, seeded with the projections of the primary
inputs and extended with one entry per evaluated step. -/
def envLookup (env : List (Char × BitFunction)) (c : Char) : Option BitFunction :=
  match env.find? (fun p => p.1 = c) with
  | some p => some p.2
  | none => none

/-- Modelled from the spec: the source reads a fanin with
`tables[*it++]`, and `std::unordered_map::operator[]` default-constructs a
`kitty::dynamic_truth_table` when the key is absent; that constructor is
not part of the provided sources.  Spec section 4.2 item 5 requires each
fanin identifier to be already bound in the variable environment (primary
input or earlier step output), so an unbound identifier is modelled as a
failure of the step. -/
def lookupFanins (env : List (Char × BitFunction)) : List Char → Option (List BitFunction)
  | [] => some []
  | c :: cs =>
    match envLookup env c with
    | none => none
    | some f =>
      match lookupFanins env cs with
      | none => none
      | some fs => some (f :: fs)

/-- Read the `f` fanin references of a step: `f` repetitions of a single
space followed by one identifier character (lines 93-110 of the source).
Returns the raw identifier characters and the unconsumed remainder of the
line; `none` when a space or identifier character is missing. -/
def faninChars : Nat → List Char → Option (List Char × List Char)
  | 0, cs => some ([], cs)
  | f + 1, ' ' :: c :: cs =>
    match faninChars f cs with
    | none => none
    | some (l, r) => some (c :: l, r)
  | _ + 1, _ => none

/-- The in-step fanin ordering check of lines 101-105: starting from
`last_fanin = 'a'`, each lowercased identifier must be greater than or
equal to its predecessor. -/
def nondecFrom (last : Char) : List Char → Bool
  | [] => true
  | c :: cs => if c < last then false else nondecFrom c cs

/-- The local `k`-bit input pattern of lines 137-141: bit `j` of the
pattern is the bit of the `j`-th fanin's function at global input index
`i` (`pattern |= get_bit(vfanin[j], i) << j`). -/
def localPatternGo (i : Nat) : List BitFunction → Nat → Nat
  | [], _ => 0
  | f :: rest, j => ((if f.getBit i then 1 else 0) <<< j) ||| localPatternGo i rest (j + 1)

/-- The local input pattern of a step, starting at fanin position 0. -/
def localPattern (vfanin : List BitFunction) (i : Nat) : Nat :=
  localPatternGo i vfanin 0

/-- The step evaluation loop of lines 134-146: for every global input
index `i`, set output bit `i` when the gate's truth table holds at the
local pattern. -/
def evalStep (numBits : Nat) (gate : BitFunction) (vfanin : List BitFunction)
    (init : BitFunction) : BitFunction :=
  (List.range numBits).foldl
    (fun tt i => if gate.getBit (localPattern vfanin i) then tt.setBit i else tt) init

/-- The output identifier of step `i`: `'A' + num_vars + i` (line 64). -/
def outChar (numVars i : Nat) : Char :=
  Char.ofNat ('A'.toNat + numVars + i)

/-- The lowercased identifier of the preceding step's output,
`'a' + num_vars + i - 1` (line 118). -/
def prevOutLower (numVars i : Nat) : Char :=
  Char.ofNat ('a'.toNat + numVars + i - 1)

/-- State threaded through the step loop of `verify`: the variable
environment `tables`, and the `prev_gate`, `prev_supp` and `schain`
strings. -/
structure VState where
  env : List (Char × BitFunction)
  prevGate : List Char
  prevSupp : List Char
  schain : List Char
deriving DecidableEq

/-- One iteration of the step loop of `verify` (lines 60-149): check the
positional output name, the `" = "` separator, decode and
normalization-check the gate, read the fanins with the in-step ordering
check, apply the same-support tie-break (line 112) and the cross-support
ordering check (line 118), reject trailing characters, then evaluate the
step and bind its output.  `none` models `return 0`. -/
def processStep (numVars fanin numBits i : Nat) (st : VState) (lineStr : String) :
    Option VState :=
  match lineStr.data with
  | [] => none
  | name :: r1 =>
    if name = outChar numVars i then
      if r1.take 3 = [' ', '=', ' '] then
        let r2 := r1.drop 3
        let gatett := r2.take (2 ^ fanin)
        let r3 := r2.drop (2 ^ fanin)
        match fromBinary fanin gatett with
        | none => none
        | some gate =>
          if gate.getBit 0 then none
          else
            match faninChars fanin r3 with
            | none => none
            | some (raw, r4) =>
              let supp := raw.map lowerChar
              if nondecFrom 'a' supp then
                match lookupFanins st.env raw with
                | none => none
                | some vfanin =>
                  if supp = st.prevSupp ∧ lexLt st.prevGate gatett = false then none
                  else if i ≠ 0 ∧ supp ≠ st.prevSupp ∧
                      supp.contains (prevOutLower numVars i) = false ∧
                      lexLt st.prevSupp supp = false then none
                  else if r4 = [] then
                    let steptt := evalStep numBits gate vfanin (zeroFn numVars)
                    some ⟨(outChar numVars i, steptt) :: st.env, gatett, supp,
                      st.schain ++ supp⟩
                  else none
              else none
      else none
    else none

/-- The step loop of `verify`: process the chain's lines in order,
stopping with `none` at the first violation. -/
def processChain (numVars fanin numBits : Nat) : Nat → VState → List String → Option VState
  | _, st, [] => some st
  | i, st, ln :: rest =>
    match processStep numVars fanin numBits i st ln with
    | none => none
    | some st1 => processChain numVars fanin numBits (i + 1) st1 rest

/-- The initial variable environment: one projection per primary input
(lines 43-48). -/
def initEnv (numVars : Nat) : List (Char × BitFunction) :=
  (List.range numVars).map (fun k => (Char.ofNat ('a'.toNat + k), projection numVars k))

/-- The initial loop state: empty `prev_gate`, `prev_supp`, `schain`. -/
def initState (numVars : Nat) : VState :=
  ⟨initEnv numVars, [], [], []⟩

/-- The whole checking pipeline of `verify` (lines 37-155): build the
target from its hex string, require the declared number of steps, run the
step loop, and finally require the last step's bound function to equal the
target (line 151; the final `tables[...]` access is modelled like
`lookupFanins`, failing when the key is absent).  `none` means `verify`
returns 0, `some st` means it returns 1 with final loop state `st`. -/
def checkChain (chain : List String) (numVars : Nat) (hextt : String)
    (fanin steps : Nat) : Option VState :=
  match fromHex numVars hextt with
  | none => none
  | some spec =>
    if chain.length = steps then
      match processChain numVars fanin (2 ^ numVars) 0 (initState numVars) chain with
      | none => none
      | some st =>
        match envLookup st.env (Char.ofNat ('A'.toNat + numVars + steps - 1)) with
        | none => none
        | some fin => if fin = spec then some st else none
    else none

/-- The return value of `verify`: 1 when every check passes, 0 otherwise. -/
def verify (chain : List String) (numVars : Nat) (hextt : String)
    (fanin steps : Nat) : Nat :=
  match checkChain chain numVars hextt fanin steps with
  | some _ => 1
  | none => 0

/-- Exchange bits `i` and `j` of the input index `t`. -/
def swapBitsNat (i j t : Nat) : Nat :=
  if t.testBit i = t.testBit j then t
  else if t.testBit i then t - 2 ^ i + 2 ^ j
  else t + 2 ^ i - 2 ^ j

/-- Modelled from the spec: `kitty::is_symmetric_in` is not part of the
provided sources; spec section 4.5 describes the standard symmetry test,
equivalently that exchanging the roles of inputs `i` and `j` leaves the
function unchanged at every input index. -/
def isSymmetricIn (f : BitFunction) (i j : Nat) : Bool :=
  (List.range (2 ^ f.numVars)).all (fun t => f.getBit t = f.getBit (swapBitsNat i j t))

/-- Position of the first occurrence of `c` in `l`; the list's length when
absent, matching the `std::find` iterator comparison of line 162. -/
def firstPos (l : List Char) (c : Char) : Nat :=
  l.findIdx (fun x => x = c)

/-- The symmetry audit of lines 157-167: the pairs `(i, j)` with
`i < j < num_vars` for which the message "symmetry property violated" is
printed — the target is symmetric in `(i, j)` and the first occurrence of
identifier `'a' + j` in `schain` precedes the first occurrence of
`'a' + i`.  The audit only prints; it does not affect the return value of
`verify`. -/
def advisoryPairs (spec : BitFunction) (numVars : Nat) (schain : List Char) :
    List (Nat × Nat) :=
  (List.range numVars).flatMap (fun j =>
    ((List.range j).filter (fun i =>
      isSymmetricIn spec i j ∧
      firstPos schain (Char.ofNat ('a'.toNat + j)) <
        firstPos schain (Char.ofNat ('a'.toNat + i)))).map (fun i => (i, j)))

/-!
The aggregator: the `main` function of `bln_verify.cpp` (lines 172-222).
-/

/-- Modelled from the spec: `kitty::detail::trim` is not part of the
provided sources; spec section 6 describes blocks of non-empty trimmed
lines, with whitespace trimmed before parsing.  We remove leading and
trailing whitespace. -/
def trimModel (s : String) : String :=
  ⟨(((s.data.dropWhile Char.isWhitespace).reverse.dropWhile Char.isWhitespace).reverse)⟩

/-- The update `main` performs after verifying one block (lines 200-202):
`points` is always incremented, `violations` only when `verify`
returned 0. -/
def blockUpdate (points violations res : Nat) : Nat × Nat :=
  (points + 1, if res = 0 then violations + 1 else violations)

/-- The file-reading loop of `main` (lines 193-217): trim each line; a
blank line flushes the pending block (verifying it when non-empty), a
non-blank line is appended to the pending block; a non-empty pending block
left at end of file is flushed once more.  Returns the final
`(points, violations)`. -/
def aggGo (numVars : Nat) (hextt : String) (fanin steps : Nat)
    (pending : List String) (points violations : Nat) :
    List String → Nat × Nat
  | [] =>
    if pending = [] then (points, violations)
    else blockUpdate points violations (verify pending numVars hextt fanin steps)
  | ln :: rest =>
    let t := trimModel ln
    if t = "" then
      if pending = [] then aggGo numVars hextt fanin steps [] points violations rest
      else
        let pv := blockUpdate points violations (verify pending numVars hextt fanin steps)
        aggGo numVars hextt fanin steps [] pv.1 pv.2 rest
    else aggGo numVars hextt fanin steps (pending ++ [trimModel t]) points violations rest

/-- The `(points, violations)` pair `main` accumulates over the lines of
the input file. -/
def aggregate (numVars : Nat) (hextt : String) (fanin steps : Nat)
    (lines : List String) : Nat × Nat :=
  aggGo numVars hextt fanin steps [] 0 0 lines

/-- The score printed on line 221 of the source:
`double(points) / (1 << violations)`, modelled over the rationals (the
values arising here are small integers and powers of two, on which double
arithmetic is exact). -/
def emittedScore (numVars : Nat) (hextt : String) (fanin steps : Nat)
    (lines : List String) : ℚ :=
  let pv := aggregate numVars hextt fanin steps lines
  (pv.1 : ℚ) / ((1 <<< pv.2 : Nat) : ℚ)

/-- Modelled from the spec: `std::stoi` parses a decimal numeral; on the
plain decimal arguments of the documented interface it returns its value,
and a non-numeric argument raises (modelled as `none`, like the crash from
a missing argument). -/
def stoiModel (s : String) : Option Nat :=
  if s.data ≠ [] ∧ s.data.all (fun c => '0' ≤ c ∧ c ≤ '9') then
    some (s.data.foldl (fun acc c => 10 * acc + (c.toNat - '0'.toNat)) 0)
  else none

/-- Result of a simulated invocation of `main`: whether the usage message
was printed to standard error, and the `(points, violations)` pair of the
run — `none` models the crash from indexing a missing `argv` entry or a
failing `std::stoi`. -/
structure MainResult where
  usageError : Bool
  run : Option (Nat × Nat)
deriving DecidableEq

/-- The argument handling of `main` (lines 174-182): with a number of
arguments other than four the usage message is printed to standard error,
but execution continues regardless — there is no early return.  The four
leading arguments are then read and the file processed; supernumerary
arguments are ignored. -/
def mainSim (progArgs : List String) (fileLines : List String) : MainResult :=
  let usageError := progArgs.length ≠ 4
  match progArgs with
  | a1 :: a2 :: a3 :: a4 :: _ =>
    match stoiModel a1, stoiModel a3, stoiModel a4 with
    | some numVars, some fanin, some steps =>
      ⟨usageError, some (aggregate numVars a2 fanin steps fileLines)⟩
    | _, _, _ => ⟨usageError, none⟩
  | _ => ⟨usageError, none⟩

/-!
Definitions following the specification's words, for comparison with the
code above.
-/

/-- Strict colexicographic less-than on character sequences, following the
spec's glossary: "lexicographic comparison performed from the last symbol
backward". -/
def colexLt (a b : List Char) : Bool :=
  lexLt a.reverse b.reverse

/-- The gate truth-table substring of a step line: the `2 ^ fanin`
characters following the one-character name and the three-character
`" = "` separator. -/
def stepGateChars (fanin : Nat) (ln : String) : List Char :=
  (ln.data.drop 4).take (2 ^ fanin)

/-- The raw fanin identifier characters of a step line: character `j` sits
at position `4 + 2 ^ fanin + 2 * j + 1`, after its single-space prefix. -/
def stepFanins (fanin : Nat) (ln : String) : List Char :=
  (List.range fanin).map (fun j => ln.data.getD (4 + 2 ^ fanin + 2 * j + 1) ' ')

/-- The support of a step line: its fanin identifiers, lowercased. -/
def stepSuppL (fanin : Nat) (ln : String) : List Char :=
  (stepFanins fanin ln).map lowerChar

/-- Decidable form of "non-decreasing from left to right" used to state
claim C6: every adjacent pair of characters is ordered. -/
def pairwiseNondec : List Char → Bool
  | [] => true
  | [_] => true
  | a :: b :: r => if a ≤ b then pairwiseNondec (b :: r) else false

/-- Whether the identifier `c` is bound when step `i` begins: a lowercase
primary-input letter among the first `numVars`, or the uppercase output
letter of one of the earlier steps `0 .. i-1`. -/
def boundId (numVars i : Nat) (c : Char) : Prop :=
  ('a'.toNat ≤ c.toNat ∧ c.toNat < 'a'.toNat + numVars) ∨
  ('A'.toNat + numVars ≤ c.toNat ∧ c.toNat < 'A'.toNat + numVars + i)

/-- A step variant that follows the claim C2 wording of the same-support
tie-break: with equal supports the chain fails only when the current gate
string is lexicographically strictly smaller than the previous one (so
greater-or-equal passes).  Every other check is exactly as in
`processStep`. -/
def processStepClaimTie (numVars fanin numBits i : Nat) (st : VState) (lineStr : String) :
    Option VState :=
  match lineStr.data with
  | [] => none
  | name :: r1 =>
    if name = outChar numVars i then
      if r1.take 3 = [' ', '=', ' '] then
        let r2 := r1.drop 3
        let gatett := r2.take (2 ^ fanin)
        let r3 := r2.drop (2 ^ fanin)
        match fromBinary fanin gatett with
        | none => none
        | some gate =>
          if gate.getBit 0 then none
          else
            match faninChars fanin r3 with
            | none => none
            | some (raw, r4) =>
              let supp := raw.map lowerChar
              if nondecFrom 'a' supp then
                match lookupFanins st.env raw with
                | none => none
                | some vfanin =>
                  if supp = st.prevSupp ∧ lexLt gatett st.prevGate = true then none
                  else if i ≠ 0 ∧ supp ≠ st.prevSupp ∧
                      supp.contains (prevOutLower numVars i) = false ∧
                      lexLt st.prevSupp supp = false then none
                  else if r4 = [] then
                    let steptt := evalStep numBits gate vfanin (zeroFn numVars)
                    some ⟨(outChar numVars i, steptt) :: st.env, gatett, supp,
                      st.schain ++ supp⟩
                  else none
              else none
      else none
    else none

/-- Chain loop over `processStepClaimTie`. -/
def processChainClaimTie (numVars fanin numBits : Nat) :
    Nat → VState → List String → Option VState
  | _, st, [] => some st
  | i, st, ln :: rest =>
    match processStepClaimTie numVars fanin numBits i st ln with
    | none => none
    | some st1 => processChainClaimTie numVars fanin numBits (i + 1) st1 rest

/-- `verify` with the same-support tie-break read as claim C2 states it
(lexicographically greater-or-equal passes); used to show the code
disagrees with that reading. -/
def verifyClaimTie (chain : List String) (numVars : Nat) (hextt : String)
    (fanin steps : Nat) : Nat :=
  match fromHex numVars hextt with
  | none => 0
  | some spec =>
    if chain.length = steps then
      match processChainClaimTie numVars fanin (2 ^ numVars) 0 (initState numVars) chain with
      | none => 0
      | some st =>
        match envLookup st.env (Char.ofNat ('A'.toNat + numVars + steps - 1)) with
        | none => 0
        | some fin => if fin = spec then 1 else 0
    else 0

/-- Count of maximal runs of non-blank (after trimming) lines, following
the words of claim C10: a run of blank lines contributes nothing, and a
final run of non-blank lines not followed by a blank line still counts
once.  The flag records whether the previous line belonged to a run. -/
def runsGo (inRun : Bool) : List String → Nat
  | [] => 0
  | ln :: rest =>
    if trimModel ln = "" then runsGo false rest
    else if inRun then runsGo true rest
    else 1 + runsGo true rest

/-- Number of maximal runs of non-blank lines in a file. -/
def maximalNonBlankRuns (lines : List String) : Nat :=
  runsGo false lines

/-- The blocks of a file, following the spec's words: maximal runs of
non-blank lines, each line trimmed, in file order. -/
def blocksGo (pending : List String) : List String → List (List String)
  | [] => if pending = [] then [] else [pending]
  | ln :: rest =>
    let t := trimModel ln
    if t = "" then
      if pending = [] then blocksGo [] rest
      else pending :: blocksGo [] rest
    else blocksGo (pending ++ [trimModel t]) rest

/-- The blocks of a file. -/
def blocksOf (lines : List String) : List (List String) :=
  blocksGo [] lines

/-- The bit of the `j`-th fanin's function at global input index `i`
(`false` when there is no `j`-th fanin), used to state claim C4. -/
def faninBitAt (vfanin : List BitFunction) (i j : Nat) : Bool :=
  ((vfanin[j]?).map (fun g => g.getBit i)).getD false

/-- The concatenated support sequence `schain` of a successfully verified
chain (empty for a failed chain). -/
def schainOf (chain : List String) (numVars : Nat) (hextt : String)
    (fanin steps : Nat) : List Char :=
  match checkChain chain numVars hextt fanin steps with
  | some st => st.schain
  | none => []

/-- Ordering relation between the `(support, gate string)` data of two
consecutive steps, used to state the same-support tie-break: when the
second step's support equals the first's, the second gate string must be
lexicographically strictly greater. -/
def sameSuppGateLt (a b : List Char × List Char) : Prop :=
  b.1 = a.1 → lexLt a.2 b.2 = true

/-- The `(support, gate string)` data of one step line. -/
def stepData (fanin : Nat) (ln : String) : List Char × List Char :=
  (stepSuppL fanin ln, stepGateChars fanin ln)

/-!
Helper lemmas.
-/

theorem toNat_ofNat_of_lt {n : Nat} (h : n < 55296) : (Char.ofNat n).toNat = n := by
  have hv : n.isValidChar := Or.inl h
  simp only [Char.ofNat, hv, dif_pos, Char.ofNatAux, Char.toNat, UInt32.toNat,
    BitVec.toNat_ofNatLt]

theorem map_range_getD (l : List Char) (d : Char) :
    (List.range l.length).map (fun j => l.getD j d) = l := by
  apply List.ext_getElem
  · simp
  · intro i h1 h2
    simp [List.getD_eq_getElem?_getD, List.getElem?_eq_getElem h2]

theorem faninChars_some : ∀ (f : Nat) (cs raw r : List Char),
    faninChars f cs = some (raw, r) →
    raw = (List.range f).map (fun j => cs.getD (2 * j + 1) ' ') ∧ r = cs.drop (2 * f)
  | 0, cs, raw, r, h => by
    simp only [faninChars, Option.some.injEq, Prod.mk.injEq] at h
    simp [← h.1, ← h.2]
  | f + 1, [], raw, r, h => by simp [faninChars] at h
  | f + 1, c :: cs, raw, r, h => by
    by_cases hc : c = ' '
    · subst hc
      match cs with
      | [] => simp [faninChars] at h
      | c1 :: cs1 =>
        simp only [faninChars] at h
        match hrec : faninChars f cs1 with
        | none => rw [hrec] at h; exact absurd h (by simp)
        | some (l1, r1) =>
          rw [hrec] at h
          simp only [Option.some.injEq, Prod.mk.injEq] at h
          obtain ⟨hraw, hr⟩ := h
          obtain ⟨ih1, ih2⟩ := faninChars_some f cs1 l1 r1 hrec
          constructor
          · rw [← hraw, List.range_succ_eq_map, List.map_cons, List.map_map, ih1]
            constructor
          · rw [← hr, ih2]
            have : 2 * (f + 1) = 2 * f + 1 + 1 := by omega
            rw [this]
            rfl
    · match cs with
      | [] => simp [faninChars, hc] at h
      | c1 :: cs1 => simp [faninChars, hc] at h

theorem lookupFanins_isSome : ∀ (env : List (Char × BitFunction)) (raw : List Char)
    (vf : List BitFunction), lookupFanins env raw = some vf →
    ∀ c ∈ raw, (envLookup env c).isSome = true
  | _, [], _, _, _, hc => by simp at hc
  | env, c0 :: cs, vf, h, c, hc => by
    simp only [lookupFanins] at h
    match he : envLookup env c0 with
    | none => rw [he] at h; exact absurd h (by simp)
    | some f0 =>
      rw [he] at h
      match hrec : lookupFanins env cs with
      | none => rw [hrec] at h; exact absurd h (by simp)
      | some fs =>
        rcases List.mem_cons.mp hc with hcc | hcc
        · subst hcc; simp [he]
        · exact lookupFanins_isSome env cs fs hrec c hcc

theorem envLookup_cons_isSome (k : Char) (v : BitFunction)
    (env : List (Char × BitFunction)) (c : Char) :
    (envLookup ((k, v) :: env) c).isSome = true →
    c = k ∨ (envLookup env c).isSome = true := by
  intro h
  by_cases hk : c = k
  · exact Or.inl hk
  · right
    simp only [envLookup, List.find?_cons] at h
    have : (decide (k = c)) = false := by simp [Ne.symm hk]
    rw [this] at h
    simpa [envLookup] using h

theorem pairwiseNondec_of_nondecFrom : ∀ (l : List Char) (last : Char),
    nondecFrom last l = true → pairwiseNondec l = true
  | [], _, _ => rfl
  | [_], _, _ => rfl
  | c :: d :: r, last, h => by
    simp only [nondecFrom] at h
    split at h
    · exact absurd h (by simp)
    · have hd := h
      simp only [nondecFrom] at hd
      split at hd
      · exact absurd hd (by simp)
      · have hle : c ≤ d := le_of_not_lt (by assumption)
        simp only [pairwiseNondec, if_pos hle]
        exact pairwiseNondec_of_nondecFrom (d :: r) c h

theorem testBit_one (k : Nat) : (1 : Nat).testBit k = decide (k = 0) := by
  cases k with
  | zero => rfl
  | succ n => simp [Nat.testBit_succ]

theorem condBit_testBit (b : Bool) (k : Nat) :
    ((if b = true then 1 else 0 : Nat).testBit k) = (b && decide (k = 0)) := by
  cases b <;> simp [testBit_one, Nat.zero_testBit]

theorem localPatternGo_testBit (i : Nat) : ∀ (vf : List BitFunction) (j0 m : Nat),
    (localPatternGo i vf j0).testBit m =
      if j0 ≤ m then faninBitAt vf i (m - j0) else false
  | [], j0, m => by simp [localPatternGo, faninBitAt, Nat.zero_testBit]
  | f :: rest, j0, m => by
    have hA : ((if f.getBit i = true then 1 else 0 : Nat) <<< j0).testBit m =
        (decide (j0 ≤ m) && (f.getBit i && decide (m - j0 = 0))) := by
      rw [Nat.testBit_shiftLeft, condBit_testBit]
    simp only [localPatternGo, Nat.testBit_or, hA,
      localPatternGo_testBit i rest (j0 + 1) m]
    rcases Nat.lt_trichotomy m j0 with hlt | heq | hgt
    · have h1 : ¬ (j0 ≤ m) := by omega
      have h2 : ¬ (j0 + 1 ≤ m) := by omega
      simp [h1, h2]
    · subst heq
      have h2 : ¬ (m + 1 ≤ m) := by omega
      simp [h2, faninBitAt]
    · have h1 : j0 ≤ m := by omega
      have h2 : j0 + 1 ≤ m := by omega
      have h3 : ¬ (m - j0 = 0) := by omega
      have h4 : m - j0 = (m - (j0 + 1)) + 1 := by omega
      simp only [h1, h2, h3, decide_eq_true_eq, if_true, decide_eq_false_iff_not,
        not_false_iff]
      rw [h4]
      simp [faninBitAt, h1, h2, h3]

theorem localPattern_testBit (vf : List BitFunction) (i j : Nat) :
    (localPattern vf i).testBit j = faninBitAt vf i j := by
  rw [localPattern, localPatternGo_testBit]
  simp

theorem getBit_setBit (tt : BitFunction) (n i : Nat) :
    (tt.setBit n).getBit i = if i = n ∧ n < tt.bits.length then true else tt.getBit i := by
  simp only [BitFunction.setBit, BitFunction.getBit]
  by_cases h : i = n
  · subst h
    by_cases hb : i < tt.bits.length
    · simp [List.getElem?_set_self, hb]
    · rw [List.set_eq_of_length_le (by omega)]
      simp [hb]
  · have hne : n ≠ i := Ne.symm h
    simp [List.getElem?_set_ne hne, h]

theorem foldStep_length (gate : BitFunction) (vf : List BitFunction) :
    ∀ (l : List Nat) (init : BitFunction),
    ((l.foldl (fun tt i => if gate.getBit (localPattern vf i) then tt.setBit i else tt)
      init).bits.length) = init.bits.length
  | [], _ => rfl
  | x :: xs, init => by
    simp only [List.foldl_cons]
    rw [foldStep_length gate vf xs]
    split <;> simp [BitFunction.setBit, List.length_set]

theorem evalStep_length (n : Nat) (gate : BitFunction) (vf : List BitFunction)
    (init : BitFunction) : (evalStep n gate vf init).bits.length = init.bits.length :=
  foldStep_length gate vf (List.range n) init

theorem evalStep_getBit : ∀ (n : Nat) (gate : BitFunction) (vf : List BitFunction)
    (init : BitFunction) (i : Nat), n ≤ init.bits.length →
    (evalStep n gate vf init).getBit i =
      if i < n then (gate.getBit (localPattern vf i) || init.getBit i) else init.getBit i
  | 0, gate, vf, init, i, _ => by simp [evalStep]
  | n + 1, gate, vf, init, i, hn => by
    have hstep : evalStep (n + 1) gate vf init =
        (if gate.getBit (localPattern vf n) then (evalStep n gate vf init).setBit n
         else evalStep n gate vf init) := by
      simp only [evalStep]
      rw [show n + 1 = Nat.succ n from rfl, List.range_succ, List.foldl_append,
        List.foldl_cons, List.foldl_nil]
    have hlen : (evalStep n gate vf init).bits.length = init.bits.length :=
      evalStep_length n gate vf init
    have ih := evalStep_getBit n gate vf init i (by omega)
    rw [hstep]
    by_cases hg : gate.getBit (localPattern vf n)
    · rw [if_pos hg, getBit_setBit, hlen]
      by_cases hin : i = n
      · subst hin
        simp [hg, Nat.lt_succ_self, show i < init.bits.length from by omega]
      · have : ¬ (i = n ∧ n < init.bits.length) := fun hc => hin hc.1
        rw [if_neg this, ih]
        by_cases hlt : i < n
        · simp [hlt, Nat.lt_succ_of_lt hlt]
        · have h1 : ¬ (i < n + 1) := by omega
          simp [hlt, h1]
    · rw [if_neg hg, ih]
      by_cases hlt : i < n
      · simp [hlt, Nat.lt_succ_of_lt hlt]
      · by_cases hin : i = n
        · subst hin
          simp [hlt, Nat.lt_succ_self, hg]
        · have h1 : ¬ (i < n + 1) := by omega
          simp [hlt, h1]

theorem zeroFn_getBit (n i : Nat) : (zeroFn n).getBit i = false := by
  simp only [zeroFn, BitFunction.getBit, List.getElem?_replicate]
  split <;> rfl

theorem zeroFn_length (n : Nat) : (zeroFn n).bits.length = 2 ^ n := by
  simp [zeroFn]

theorem stepGateChars_data {f : Nat} {ln : String} {name : Char} {r1 : List Char}
    (h : ln.data = name :: r1) : stepGateChars f ln = (r1.drop 3).take (2 ^ f) := by
  simp [stepGateChars, h]

theorem stepFanins_data {f : Nat} {ln : String} {name : Char} {r1 raw r4 : List Char}
    (h : ln.data = name :: r1)
    (hf : faninChars f ((r1.drop 3).drop (2 ^ f)) = some (raw, r4)) :
    stepFanins f ln = raw := by
  obtain ⟨hraw, _⟩ := faninChars_some f _ raw r4 hf
  rw [hraw, stepFanins]
  apply List.map_congr_left
  intro j _
  rw [List.getD_eq_getElem?_getD, List.getD_eq_getElem?_getD, h,
    List.getElem?_drop, List.getElem?_drop, List.getElem?_cons_succ]
  congr 2
  omega

theorem processStep_inv {nv f nb i : Nat} {st st' : VState} {ln : String}
    (h : processStep nv f nb i st ln = some st') :
    ∃ gate vfanin,
      fromBinary f (stepGateChars f ln) = some gate ∧
      gate.getBit 0 = false ∧
      nondecFrom 'a' (stepSuppL f ln) = true ∧
      lookupFanins st.env (stepFanins f ln) = some vfanin ∧
      (stepSuppL f ln = st.prevSupp → lexLt st.prevGate (stepGateChars f ln) = true) ∧
      st' = ⟨(outChar nv i, evalStep nb gate vfanin (zeroFn nv)) :: st.env,
        stepGateChars f ln, stepSuppL f ln, st.schain ++ stepSuppL f ln⟩ := by
  match hdata : ln.data with
  | [] => simp [processStep, hdata] at h
  | name :: r1 =>
    rw [stepGateChars_data hdata]
    simp only [processStep, hdata] at h
    by_cases hname : name = outChar nv i
    · rw [if_pos hname] at h
      by_cases hsep : r1.take 3 = [' ', '=', ' ']
      · rw [if_pos hsep] at h
        match hgate : fromBinary f ((r1.drop 3).take (2 ^ f)) with
        | none => rw [hgate] at h; exact absurd h (by simp)
        | some gate =>
          simp only [hgate] at h
          by_cases hnorm : gate.getBit 0
          · rw [if_pos hnorm] at h; exact absurd h (by simp)
          · rw [if_neg hnorm] at h
            match hfc : faninChars f ((r1.drop 3).drop (2 ^ f)) with
            | none => rw [hfc] at h; exact absurd h (by simp)
            | some (raw, r4) =>
              simp only [hfc] at h
              have hfr : stepFanins f ln = raw := stepFanins_data hdata hfc
              have hsupp : stepSuppL f ln = raw.map lowerChar := by
                rw [stepSuppL, hfr]
              rw [hsupp]
              by_cases hnd : nondecFrom 'a' (raw.map lowerChar)
              · rw [if_pos hnd] at h
                match hlk : lookupFanins st.env raw with
                | none => rw [hlk] at h; exact absurd h (by simp)
                | some vfanin =>
                  simp only [hlk] at h
                  by_cases htie : raw.map lowerChar = st.prevSupp ∧
                      lexLt st.prevGate ((r1.drop 3).take (2 ^ f)) = false
                  · rw [if_pos htie] at h; exact absurd h (by simp)
                  · rw [if_neg htie] at h
                    by_cases hclx : i ≠ 0 ∧ raw.map lowerChar ≠ st.prevSupp ∧
                        (raw.map lowerChar).contains (prevOutLower nv i) = false ∧
                        lexLt st.prevSupp (raw.map lowerChar) = false
                    · rw [if_pos hclx] at h; exact absurd h (by simp)
                    · rw [if_neg hclx] at h
                      by_cases hr4 : r4 = []
                      · rw [if_pos hr4] at h
                        simp only [Option.some.injEq] at h
                        refine ⟨gate, vfanin, rfl, by simp [hnorm], hnd, ?_, ?_, ?_⟩
                        · rw [hfr]; exact hlk
                        · intro hs
                          rcases not_and_or.mp htie with hc | hc
                          · exact absurd hs hc
                          · simpa using hc
                        · exact h.symm
                      · rw [if_neg hr4] at h; exact absurd h (by simp)
              · rw [if_neg hnd] at h; exact absurd h (by simp)
      · rw [if_neg hsep] at h; exact absurd h (by simp)
    · rw [if_neg hname] at h; exact absurd h (by simp)

theorem checkChain_some {chain : List String} {nv : Nat} {hextt : String}
    {f s : Nat} {st : VState} (h : checkChain chain nv hextt f s = some st) :
    ∃ spec, fromHex nv hextt = some spec ∧ chain.length = s ∧
      processChain nv f (2 ^ nv) 0 (initState nv) chain = some st ∧
      envLookup st.env (Char.ofNat ('A'.toNat + nv + s - 1)) = some spec := by
  unfold checkChain at h
  match hhex : fromHex nv hextt with
  | none => rw [hhex] at h; exact absurd h (by simp)
  | some spec =>
    simp only [hhex] at h
    by_cases hlen : chain.length = s
    · rw [if_pos hlen] at h
      match hpc : processChain nv f (2 ^ nv) 0 (initState nv) chain with
      | none => rw [hpc] at h; exact absurd h (by simp)
      | some st0 =>
        simp only [hpc] at h
        match hfin : envLookup st0.env (Char.ofNat ('A'.toNat + nv + s - 1)) with
        | none => rw [hfin] at h; exact absurd h (by simp)
        | some fin =>
          simp only [hfin] at h
          by_cases heq : fin = spec
          · rw [if_pos heq] at h
            simp only [Option.some.injEq] at h
            subst h
            exact ⟨spec, rfl, hlen, rfl, by rw [hfin, heq]⟩
          · rw [if_neg heq] at h; exact absurd h (by simp)
    · rw [if_neg hlen] at h; exact absurd h (by simp)

theorem verify_eq_one {chain : List String} {nv : Nat} {hextt : String} {f s : Nat}
    (h : verify chain nv hextt f s = 1) :
    ∃ st, checkChain chain nv hextt f s = some st := by
  unfold verify at h
  match hc : checkChain chain nv hextt f s with
  | none => rw [hc] at h; exact absurd h (by simp)
  | some st => exact ⟨st, rfl⟩

theorem processChain_cons {nv f nb i : Nat} {st st' : VState} {ln : String}
    {rest : List String}
    (h : processChain nv f nb i st (ln :: rest) = some st') :
    ∃ st1, processStep nv f nb i st ln = some st1 ∧
      processChain nv f nb (i + 1) st1 rest = some st' := by
  simp only [processChain] at h
  match hps : processStep nv f nb i st ln with
  | none => rw [hps] at h; exact absurd h (by simp)
  | some st1 => rw [hps] at h; exact ⟨st1, rfl, h⟩

theorem processChain_gate_normalized {nv f nb : Nat} :
    ∀ (lines : List String) (i : Nat) (st st' : VState),
    processChain nv f nb i st lines = some st' →
    ∀ ln ∈ lines, ∀ g, fromBinary f (stepGateChars f ln) = some g →
      g.getBit 0 = false
  | [], _, _, _, _, ln, hln, _, _ => absurd hln (List.not_mem_nil ln)
  | ln0 :: rest, i, st, st', h, ln, hln, g, hg => by
    obtain ⟨st1, hps, hrest⟩ := processChain_cons h
    rcases List.mem_cons.mp hln with hc | hc
    · subst hc
      obtain ⟨gate, _, hbin, hnorm, _⟩ := processStep_inv hps
      rw [hbin] at hg
      simp only [Option.some.injEq] at hg
      rw [← hg]
      exact hnorm
    · exact processChain_gate_normalized rest (i + 1) st1 st' hrest ln hc g hg

theorem processChain_fanins_ordered {nv f nb : Nat} :
    ∀ (lines : List String) (i : Nat) (st st' : VState),
    processChain nv f nb i st lines = some st' →
    ∀ ln ∈ lines, nondecFrom 'a' (stepSuppL f ln) = true
  | [], _, _, _, _, ln, hln => absurd hln (List.not_mem_nil ln)
  | ln0 :: rest, i, st, st', h, ln, hln => by
    obtain ⟨st1, hps, hrest⟩ := processChain_cons h
    rcases List.mem_cons.mp hln with hc | hc
    · subst hc
      obtain ⟨_, _, _, _, hnd, _⟩ := processStep_inv hps
      exact hnd
    · exact processChain_fanins_ordered rest (i + 1) st1 st' hrest ln hc

theorem processChain_tie_break {nv f nb : Nat} :
    ∀ (lines : List String) (i : Nat) (st st' : VState),
    processChain nv f nb i st lines = some st' →
    List.Chain' sameSuppGateLt
      ((st.prevSupp, st.prevGate) :: lines.map (fun ln => stepData f ln))
  | [], _, _, _, _ => List.chain'_singleton _
  | ln0 :: rest, i, st, st', h => by
    obtain ⟨st1, hps, hrest⟩ := processChain_cons h
    obtain ⟨gate, vfanin, _, _, _, _, htie, hst1⟩ := processStep_inv hps
    have ih := processChain_tie_break rest (i + 1) st1 st' hrest
    rw [hst1] at ih
    simp only [List.map_cons]
    refine List.chain'_cons.mpr ⟨?_, ih⟩
    intro hs
    exact htie hs

theorem boundId_mono {nv i j : Nat} {c : Char} (h : boundId nv i c) (hij : i ≤ j) :
    boundId nv j c := by
  rcases h with h | h
  · exact Or.inl h
  · exact Or.inr ⟨h.1, by omega⟩

theorem initEnv_dom {nv : Nat} (hnv : nv ≤ 26) (c : Char)
    (h : (envLookup (initEnv nv) c).isSome = true) : boundId nv 0 c := by
  simp only [envLookup] at h
  match hf : (initEnv nv).find? (fun p => p.1 = c) with
  | none => rw [hf] at h; exact absurd h (by simp)
  | some p =>
    have hmem := List.mem_of_find?_eq_some hf
    have hp : p.1 = c := by
      have := List.find?_some hf
      simpa using this
    simp only [initEnv, List.mem_map, List.mem_range] at hmem
    obtain ⟨k, hk, hpk⟩ := hmem
    have hc : c = Char.ofNat ('a'.toNat + k) := by
      rw [← hp, ← hpk]
    have hval : 'a'.toNat + k < 55296 := by
      have : 'a'.toNat = 97 := rfl
      omega
    left
    rw [hc, toNat_ofNat_of_lt hval]
    constructor <;> omega

theorem processChain_fanins_bound {nv f nb : Nat} :
    ∀ (lines : List String) (i : Nat) (st st' : VState),
    processChain nv f nb i st lines = some st' →
    (∀ c, (envLookup st.env c).isSome = true → boundId nv i c) →
    'A'.toNat + nv + i + lines.length ≤ 123 →
    ∀ (k : Nat) (hk : k < lines.length),
      ∀ c ∈ stepFanins f (lines.get ⟨k, hk⟩), boundId nv (i + k) c
  | [], _, _, _, _, _, _, k, hk, _, _ => absurd hk (by simp)
  | ln0 :: rest, i, st, st', h, hdom, hval, k, hk, c, hc => by
    obtain ⟨st1, hps, hrest⟩ := processChain_cons h
    obtain ⟨gate, vfanin, _, _, _, hlk, _, hst1⟩ := processStep_inv hps
    match k with
    | 0 =>
      simp only [List.get] at hc
      have hsome := lookupFanins_isSome st.env _ vfanin hlk c hc
      simpa using hdom c hsome
    | k + 1 =>
      have hdom1 : ∀ c, (envLookup st1.env c).isSome = true → boundId nv (i + 1) c := by
        intro c0 hc0
        rw [hst1] at hc0
        rcases envLookup_cons_isSome _ _ _ _ hc0 with hcc | hcc
        · subst hcc
          right
          have hval2 : 'A'.toNat + nv + i < 55296 := by
            have : 'A'.toNat = 65 := rfl
            simp only [List.length_cons] at hval
            omega
          rw [outChar, toNat_ofNat_of_lt hval2]
          constructor <;> omega
        · exact boundId_mono (hdom c0 hcc) (by omega)
      have hval1 : 'A'.toNat + nv + (i + 1) + rest.length ≤ 123 := by
        simp only [List.length_cons] at hval
        omega
      have hk1 : k < rest.length := by
        simp only [List.length_cons] at hk
        omega
      have ih := processChain_fanins_bound rest (i + 1) st1 st' hrest hdom1 hval1 k hk1 c
        (by simpa using hc)
      have : i + 1 + k = i + (k + 1) := by omega
      rw [this] at ih
      exact ih

theorem blockUpdate_eq (p v res : Nat) :
    blockUpdate p v res = (p + 1, v + (if res = 0 then 1 else 0)) := by
  simp only [blockUpdate]
  by_cases h : res = 0 <;> simp [h]

theorem aggGo_eq {nv : Nat} {hextt : String} {f s : Nat} :
    ∀ (lines pending : List String) (p v : Nat),
    aggGo nv hextt f s pending p v lines =
      (p + (blocksGo pending lines).length,
       v + ((blocksGo pending lines).filter
         (fun b => verify b nv hextt f s = 0)).length)
  | [], pending, p, v => by
    by_cases hp : pending = []
    · simp [aggGo, blocksGo, hp]
    · simp only [aggGo, blocksGo, if_neg hp, blockUpdate_eq]
      by_cases hv : verify pending nv hextt f s = 0 <;> simp [hv]
  | ln :: rest, pending, p, v => by
    by_cases ht : trimModel ln = ""
    · by_cases hp : pending = []
      · have h1 : aggGo nv hextt f s pending p v (ln :: rest) =
            aggGo nv hextt f s [] p v rest := by
          simp [aggGo, ht, hp]
        have h2 : blocksGo pending (ln :: rest) = blocksGo [] rest := by
          simp [blocksGo, ht, hp]
        rw [h1, h2]
        exact aggGo_eq rest [] p v
      · have h1 : aggGo nv hextt f s pending p v (ln :: rest) =
            aggGo nv hextt f s []
              (blockUpdate p v (verify pending nv hextt f s)).1
              (blockUpdate p v (verify pending nv hextt f s)).2 rest := by
          simp [aggGo, ht, hp]
        have h2 : blocksGo pending (ln :: rest) = pending :: blocksGo [] rest := by
          simp [blocksGo, ht, hp]
        rw [h1, h2, aggGo_eq rest [] _ _, blockUpdate_eq]
        simp only [List.length_cons, List.filter_cons]
        by_cases hv : verify pending nv hextt f s = 0
        · simp only [hv, if_pos rfl, decide_eq_true_eq]
          simp [hv]
          constructor <;> omega
        · simp [hv]
          omega
    · have h1 : aggGo nv hextt f s pending p v (ln :: rest) =
          aggGo nv hextt f s (pending ++ [trimModel (trimModel ln)]) p v rest := by
        simp [aggGo, ht]
      have h2 : blocksGo pending (ln :: rest) =
          blocksGo (pending ++ [trimModel (trimModel ln)]) rest := by
        simp [blocksGo, ht]
      rw [h1, h2]
      exact aggGo_eq rest (pending ++ [trimModel (trimModel ln)]) p v

theorem blocksGo_length : ∀ (lines pending : List String),
    (blocksGo pending lines).length =
      if pending = [] then runsGo false lines else 1 + runsGo true lines
  | [], pending => by
    by_cases hp : pending = [] <;> simp [blocksGo, runsGo, hp]
  | ln :: rest, pending => by
    by_cases ht : trimModel ln = ""
    · have hr : runsGo (if pending = [] then false else true) (ln :: rest) =
          runsGo false rest := by
        simp [runsGo, ht]
      by_cases hp : pending = []
      · have h2 : blocksGo pending (ln :: rest) = blocksGo [] rest := by
          simp [blocksGo, ht, hp]
        rw [h2, blocksGo_length rest [], if_pos rfl, if_pos hp]
        simp [runsGo, ht]
      · have h2 : blocksGo pending (ln :: rest) = pending :: blocksGo [] rest := by
          simp [blocksGo, ht, hp]
        rw [h2, if_neg hp]
        simp only [List.length_cons]
        rw [blocksGo_length rest [], if_pos rfl]
        simp [runsGo, ht]
        omega
    · have h2 : blocksGo pending (ln :: rest) =
          blocksGo (pending ++ [trimModel (trimModel ln)]) rest := by
        simp [blocksGo, ht]
      rw [h2, blocksGo_length rest (pending ++ [trimModel (trimModel ln)])]
      rw [if_neg (by simp)]
      by_cases hp : pending = []
      · rw [if_pos hp]
        simp [runsGo, ht]
      · rw [if_neg hp]
        simp [runsGo, ht]

/-!
Claim theorems.
-/

/-- Claim C1.  The claim states that when consecutive supports differ, the
step is not the first, and the current support does not contain the
previous step's output identifier, the chain fails unless the current
support is *colexicographically* greater-or-equal to the previous one.
The code (line 118) instead applies `std::lexicographical_compare`
forward, contradicting its own diagnostic "co-lexicographic order
violated".  First half: a chain whose second support `"bb"` is
colexicographically *smaller* than the previous support `"ac"` (so the
claim demands failure) is accepted, `verify = 1`.  Second half: a chain
whose second support `"ac"` is colexicographically *greater* than the
previous `"bb"` (so the claim permits it, and every other check passes —
the same steps in the first half's order are accepted and the final
function matches the target) is rejected, `verify = 0`. -/
theorem colex_claim_contradicts_code :
    (verify ["D = 1000 a c", "E = 1000 b b"] 3 "cc" 2 2 = 1 ∧
     stepSuppL 2 "E = 1000 b b" ≠ stepSuppL 2 "D = 1000 a c" ∧
     (stepSuppL 2 "E = 1000 b b").contains (prevOutLower 3 1) = false ∧
     colexLt (stepSuppL 2 "E = 1000 b b") (stepSuppL 2 "D = 1000 a c") = true) ∧
    (verify ["D = 1000 b b", "E = 1000 a c"] 3 "a0" 2 2 = 0 ∧
     stepSuppL 2 "E = 1000 a c" ≠ stepSuppL 2 "D = 1000 b b" ∧
     (stepSuppL 2 "E = 1000 a c").contains (prevOutLower 3 1) = false ∧
     colexLt (stepSuppL 2 "D = 1000 b b") (stepSuppL 2 "E = 1000 a c") = true) := by
  decide

/-- Claim C2, counterexample.  The claim reads the same-support tie-break
as "fails unless the current gate string is lexicographically greater than
or equal to the previous one".  On a chain of two identical steps with
identical support — whose gate strings are equal, hence greater-or-equal,
and which computes the target AND function — `verify` returns 0, while the
variant `verifyClaimTie`, which implements the tie-break exactly as the
claim words it, returns 1.  Line 112 requires the previous gate to be
strictly smaller. -/
theorem same_support_equal_gates_rejected :
    verify ["C = 1000 a b", "D = 1000 a b"] 2 "8" 2 2 = 0 ∧
    verifyClaimTie ["C = 1000 a b", "D = 1000 a b"] 2 "8" 2 2 = 1 ∧
    stepSuppL 2 "D = 1000 a b" = stepSuppL 2 "C = 1000 a b" ∧
    stepGateChars 2 "D = 1000 a b" = stepGateChars 2 "C = 1000 a b" := by
  decide

/-- Claim C2, amended.  For every chain accepted by `verify`, each step
whose support equals the immediately preceding step's support has a gate
string that is lexicographically *strictly greater* than the preceding
step's gate string (a smaller-or-equal gate string causes the chain to be
marked failed). -/
theorem same_support_gates_strictly_ordered (chain : List String) (nv : Nat)
    (hextt : String) (f s : Nat) (h : verify chain nv hextt f s = 1) :
    List.Chain' sameSuppGateLt (chain.map (fun ln => stepData f ln)) := by
  obtain ⟨st, hc⟩ := verify_eq_one h
  obtain ⟨spec, _, _, hpc, _⟩ := checkChain_some hc
  exact (processChain_tie_break chain 0 (initState nv) st hpc).tail

/-- Witness for the amended claim C2: a passing chain with two
consecutive same-support steps, on which the theorem yields the strict
gate ordering. -/
theorem same_support_gates_strictly_ordered_witness :
    verify ["C = 1000 a b", "D = 1110 a b"] 2 "e" 2 2 = 1 ∧
    List.Chain' sameSuppGateLt
      ((["C = 1000 a b", "D = 1110 a b"]).map (fun ln => stepData 2 ln)) :=
  ⟨by decide,
   same_support_gates_strictly_ordered ["C = 1000 a b", "D = 1110 a b"] 2 "e" 2 2
     (by decide)⟩

/-- Claim C3.  In every chain accepted by `verify` (with identifiers
inside the single-letter range, `numVars + steps ≤ 26`), every fanin
identifier of every step is bound when that step begins: it is either a
lowercase primary-input letter or the output letter of an earlier step.
Contrapositively, a chain referencing an unbound fanin identifier is never
accepted. -/
theorem fanin_identifiers_bound (chain : List String) (nv : Nat) (hextt : String)
    (f s : Nat) (hb : nv + s ≤ 26) (h : verify chain nv hextt f s = 1) :
    ∀ (k : Nat) (hk : k < chain.length),
      ∀ c ∈ stepFanins f (chain.get ⟨k, hk⟩), boundId nv k c := by
  obtain ⟨st, hc⟩ := verify_eq_one h
  obtain ⟨spec, _, hlen, hpc, _⟩ := checkChain_some hc
  intro k hk c hcmem
  have hdom : ∀ c, (envLookup (initState nv).env c).isSome = true → boundId nv 0 c :=
    fun c h0 => initEnv_dom (by omega) c h0
  have hval : 'A'.toNat + nv + 0 + chain.length ≤ 123 := by
    have ha : 'A'.toNat = 65 := rfl
    omega
  have := processChain_fanins_bound chain 0 (initState nv) st hpc hdom hval k hk c hcmem
  simpa using this

/-- Witness for claim C3: the accepted Scenario A chain, on which the
theorem shows fanin `'a'` of step 0 is bound. -/
theorem fanin_identifiers_bound_witness :
    verify ["C = 1000 a b"] 2 "8" 2 1 = 1 ∧ boundId 2 0 'a' :=
  ⟨by decide,
   fanin_identifiers_bound ["C = 1000 a b"] 2 "8" 2 1 (by omega) (by decide) 0
     (by decide) 'a' (by decide)⟩

/-- Claim C4, in three parts.  (1) Bit `j` of the local pattern is the bit
at global index `i` of the `j`-th fanin's function.  (2) For a chain step,
bit `i` of the evaluated output function is the gate's truth-table bit at
the local pattern of `i`.  (3) A chain whose steps all pass the structural
and ordering checks (`processChain` succeeds) passes verification exactly
when the final step's bound function equals the target. -/
theorem chain_evaluation_and_equivalence :
    (∀ (vf : List BitFunction) (i j : Nat),
      (localPattern vf i).testBit j = faninBitAt vf i j) ∧
    (∀ (nv : Nat) (gate : BitFunction) (vf : List BitFunction) (i : Nat), i < 2 ^ nv →
      (evalStep (2 ^ nv) gate vf (zeroFn nv)).getBit i =
        gate.getBit (localPattern vf i)) ∧
    (∀ (chain : List String) (nv : Nat) (hextt : String) (f s : Nat)
      (spec : BitFunction) (st : VState),
      fromHex nv hextt = some spec → chain.length = s →
      processChain nv f (2 ^ nv) 0 (initState nv) chain = some st →
      (verify chain nv hextt f s = 1 ↔
        envLookup st.env (Char.ofNat ('A'.toNat + nv + s - 1)) = some spec)) := by
  refine ⟨localPattern_testBit, ?_, ?_⟩
  · intro nv gate vf i hi
    rw [evalStep_getBit (2 ^ nv) gate vf (zeroFn nv) i (by rw [zeroFn_length])]
    simp [hi, zeroFn_getBit]
  · intro chain nv hextt f s spec st hhex hlen hpc
    unfold verify checkChain
    simp only [hhex, hlen, if_pos, if_true, hpc]
    match hfin : envLookup st.env (Char.ofNat ('A'.toNat + nv + s - 1)) with
    | none => simp
    | some fin =>
      by_cases heq : fin = spec
      · simp [heq]
      · simp [heq, Ne.symm heq]

/-- Witness for claim C4: instantiations of the three parts on concrete
data, including the Scenario A chain. -/
theorem chain_evaluation_and_equivalence_witness :
    ((localPattern [] 0).testBit 0 = faninBitAt [] 0 0) ∧
    ((evalStep (2 ^ 2) (zeroFn 2) [] (zeroFn 2)).getBit 0 =
      (zeroFn 2).getBit (localPattern [] 0)) ∧
    (verify ["C = 1000 a b"] 2 "8" 2 1 = 1 ↔
      envLookup ((processChain 2 2 (2 ^ 2) 0 (initState 2)
          ["C = 1000 a b"]).getD (initState 2)).env
        (Char.ofNat ('A'.toNat + 2 + 1 - 1)) = some ((fromHex 2 "8").getD (zeroFn 2))) :=
  ⟨chain_evaluation_and_equivalence.1 [] 0 0,
   chain_evaluation_and_equivalence.2.1 2 (zeroFn 2) [] 0 (by decide),
   chain_evaluation_and_equivalence.2.2 ["C = 1000 a b"] 2 "8" 2 1 _ _ rfl rfl rfl⟩

/-- Claim C5.  In every chain accepted by `verify`, every step's decoded
gate truth table has bit 0 (the all-zero input pattern) equal to 0.
Contrapositively, a chain containing a step whose gate decodes with bit 0
set is never accepted, regardless of any other content. -/
theorem unnormalized_gate_fails (chain : List String) (nv : Nat) (hextt : String)
    (f s : Nat) (h : verify chain nv hextt f s = 1) :
    ∀ ln ∈ chain, ∀ g, fromBinary f (stepGateChars f ln) = some g →
      g.getBit 0 = false := by
  obtain ⟨st, hc⟩ := verify_eq_one h
  obtain ⟨spec, _, _, hpc, _⟩ := checkChain_some hc
  exact processChain_gate_normalized chain 0 (initState nv) st hpc

/-- Witness for claim C5: the Scenario A chain, whose single gate decodes
with bit 0 clear. -/
theorem unnormalized_gate_fails_witness :
    verify ["C = 1000 a b"] 2 "8" 2 1 = 1 ∧
    ((fromBinary 2 (stepGateChars 2 "C = 1000 a b")).getD (zeroFn 2)).getBit 0 = false :=
  ⟨by decide,
   unnormalized_gate_fails ["C = 1000 a b"] 2 "8" 2 1 (by decide) "C = 1000 a b"
     (by decide) _ rfl⟩

/-- Claim C6.  First part: in every chain accepted by `verify`, the
lowercased fanin identifiers of every step are non-decreasing from left to
right (so any decrease causes the chain to be marked failed).  Second
part: the chain line `"C = 1000 b a"` for target AND over two variables
with fanin 2 and one step fails verification. -/
theorem fanins_nondecreasing :
    (∀ (chain : List String) (nv : Nat) (hextt : String) (f s : Nat),
      verify chain nv hextt f s = 1 →
      ∀ ln ∈ chain, pairwiseNondec (stepSuppL f ln) = true) ∧
    verify ["C = 1000 b a"] 2 "8" 2 1 = 0 := by
  constructor
  · intro chain nv hextt f s h ln hln
    obtain ⟨st, hc⟩ := verify_eq_one h
    obtain ⟨spec, _, _, hpc, _⟩ := checkChain_some hc
    exact pairwiseNondec_of_nondecFrom _ _
      (processChain_fanins_ordered chain 0 (initState nv) st hpc ln hln)
  · decide

/-- Witness for claim C6: the Scenario A chain, whose fanin identifiers
are in non-decreasing order. -/
theorem fanins_nondecreasing_witness :
    verify ["C = 1000 a b"] 2 "8" 2 1 = 1 ∧
    pairwiseNondec (stepSuppL 2 "C = 1000 a b") = true :=
  ⟨by decide,
   fanins_nondecreasing.1 ["C = 1000 a b"] 2 "8" 2 1 (by decide) "C = 1000 a b"
     (by decide)⟩

/-- Claim C7.  For a chain that passes every check (`verify = 1`), the
symmetry audit never changes the outcome: even when some pair `(i, j)` is
flagged by the audit — the target symmetric in `(i, j)` and identifier `j`
used before identifier `i` in the concatenated support sequence — the
chain's block still increments `points` and leaves `violations`
unchanged. -/
theorem symmetry_audit_advisory_only (chain : List String) (nv : Nat) (hextt : String)
    (f s : Nat) (sp : BitFunction) (p : Nat × Nat) (pts viol : Nat)
    (hsp : fromHex nv hextt = some sp)
    (h : verify chain nv hextt f s = 1)
    (hadv : p ∈ advisoryPairs sp nv (schainOf chain nv hextt f s)) :
    blockUpdate pts viol (verify chain nv hextt f s) = (pts + 1, viol) := by
  rw [h, blockUpdate_eq]
  simp

/-- Witness for claim C7: a passing chain that uses `b` before `a` while
the AND target is symmetric in `(0, 1)`, so the audit flags `(0, 1)`; the
block is still scored as a pass. -/
theorem symmetry_audit_advisory_only_witness :
    blockUpdate 5 3 (verify ["C = 1000 b b", "D = 1000 a C"] 2 "8" 2 2) = (6, 3) :=
  symmetry_audit_advisory_only ["C = 1000 b b", "D = 1000 a C"] 2 "8" 2 2
    ((fromHex 2 "8").getD (zeroFn 2)) (0, 1) 5 3
    rfl (by decide) (by decide)

/-- Claim C8.  (1) The aggregator's final `(points, violations)` pair
counts one point per block of the file and one violation per failed block.
(2) The emitted score is `points / 2 ^ violations`.  (3) On a file with
two blocks, one passing and one failing, the result is `points = 2`,
`violations = 1`, score `1`. -/
theorem aggregator_scoring :
    (∀ (nv : Nat) (hextt : String) (f s : Nat) (lines : List String),
      aggregate nv hextt f s lines =
        ((blocksOf lines).length,
         ((blocksOf lines).filter (fun b => verify b nv hextt f s = 0)).length)) ∧
    (∀ (nv : Nat) (hextt : String) (f s : Nat) (lines : List String),
      emittedScore nv hextt f s lines =
        ((aggregate nv hextt f s lines).1 : ℚ) / 2 ^ (aggregate nv hextt f s lines).2) ∧
    (aggregate 2 "8" 2 1 ["C = 1000 a b", "", "C = 1110 a b"] = (2, 1) ∧
     emittedScore 2 "8" 2 1 ["C = 1000 a b", "", "C = 1110 a b"] = 1) := by
  have hagg : ∀ (nv : Nat) (hextt : String) (f s : Nat) (lines : List String),
      aggregate nv hextt f s lines =
        ((blocksOf lines).length,
         ((blocksOf lines).filter (fun b => verify b nv hextt f s = 0)).length) := by
    intro nv hextt f s lines
    rw [aggregate, aggGo_eq]
    simp [blocksOf]
  refine ⟨hagg, ?_, ?_, ?_⟩
  · intro nv hextt f s lines
    rw [emittedScore]
    rw [Nat.one_shiftLeft]
    push_cast
    rfl
  · decide
  · have h1 : aggregate 2 "8" 2 1 ["C = 1000 a b", "", "C = 1110 a b"] = (2, 1) := by
      decide
    simp only [emittedScore, h1]
    rw [Nat.one_shiftLeft]
    norm_num

/-- Claim C9.  The claim states that an invocation with a number of
arguments other than the four positional parameters terminates with a
non-zero status before reading the input or verifying chains.  The code
(lines 174-177) prints the usage message but lacks an early return: with a
fifth, supernumerary argument the usage message is printed and the run
then proceeds to read the file and verify both chains exactly as a
four-argument run would.  (Stated on the simulated `main`.) -/
theorem wrong_arg_count_still_runs :
    (mainSim ["2", "8", "2", "1", "extra"] ["C = 1000 a b", "", "C = 1110 a b"]).usageError
      = true ∧
    (mainSim ["2", "8", "2", "1", "extra"] ["C = 1000 a b", "", "C = 1110 a b"]).run =
      some (2, 1) ∧
    (mainSim ["2", "8", "2", "1", "extra"] ["C = 1000 a b", "", "C = 1110 a b"]).run =
      (mainSim ["2", "8", "2", "1"] ["C = 1000 a b", "", "C = 1110 a b"]).run := by
  decide

/-- Claim C10.  The number of scored chain attempts equals the number of
maximal runs of non-blank (after trimming) lines in the file; blank runs
contribute nothing and a final non-blank run not followed by a blank line
is still counted exactly once. -/
theorem points_counts_blocks (nv : Nat) (hextt : String) (f s : Nat)
    (lines : List String) :
    (aggregate nv hextt f s lines).1 = maximalNonBlankRuns lines := by
  rw [aggregate, aggGo_eq, maximalNonBlankRuns]
  simp only [Nat.zero_add]
  rw [blocksGo_length lines [], if_pos rfl]

end BlnVerify
